import Mathlib

/-!
Shallow embedding of the `logical-induction` repository (the `logicalinduction`
package: `sentence.py`, `credence.py`, `formula.py`, `enumerator.py`,
`inductor.py`) and proofs about it.

Numbers are modelled as exact rationals (`ℚ`); the repository's design notes
state that credences and intermediate sums are exact rationals, and the float
constants appearing in the source (`1e-7`, `1e-8`, powers of two) are all
exactly representable.  Fallible Python code (assertion failures, `IndexError`,
`KeyError`-free lookups, `max()`/`reduce` over an empty sequence) is modelled
with `Option`: `none` is a raised exception.  Python `dict`s are modelled as
association lists, Python `set`s as deduplicated lists (membership is what
matters everywhere they are used).
-/

namespace LogInd

/-- Propositional sentences, from `sentence.py`: Atom, Negation, Disjunction,
Conjunction, Implication, Iff.  Disjunction and Conjunction take any number of
sub-sentences (`*args` in the source). -/
inductive Sentence where
  | Atom (label : String)
  | Negation (inner : Sentence)
  | Disjunction (disjuncts : List Sentence)
  | Conjunction (conjuncts : List Sentence)
  | Implication (antecedent consequent : Sentence)
  | Iff (left right : Sentence)

mutual

/-- Decidable structural equality for `Sentence` (used to model dictionary
lookups keyed by sentences). -/
def decS : (a b : Sentence) → Decidable (a = b)
  | .Atom l, .Atom l' =>
      match decEq l l' with
      | isTrue h => isTrue (by rw [h])
      | isFalse h => isFalse (fun hc => h (by injection hc))
  | .Atom _, .Negation _ => isFalse (fun h => Sentence.noConfusion h)
  | .Atom _, .Disjunction _ => isFalse (fun h => Sentence.noConfusion h)
  | .Atom _, .Conjunction _ => isFalse (fun h => Sentence.noConfusion h)
  | .Atom _, .Implication _ _ => isFalse (fun h => Sentence.noConfusion h)
  | .Atom _, .Iff _ _ => isFalse (fun h => Sentence.noConfusion h)
  | .Negation _, .Atom _ => isFalse (fun h => Sentence.noConfusion h)
  | .Negation s, .Negation s' =>
      match decS s s' with
      | isTrue h => isTrue (by rw [h])
      | isFalse h => isFalse (fun hc => h (by injection hc))
  | .Negation _, .Disjunction _ => isFalse (fun h => Sentence.noConfusion h)
  | .Negation _, .Conjunction _ => isFalse (fun h => Sentence.noConfusion h)
  | .Negation _, .Implication _ _ => isFalse (fun h => Sentence.noConfusion h)
  | .Negation _, .Iff _ _ => isFalse (fun h => Sentence.noConfusion h)
  | .Disjunction _, .Atom _ => isFalse (fun h => Sentence.noConfusion h)
  | .Disjunction _, .Negation _ => isFalse (fun h => Sentence.noConfusion h)
  | .Disjunction ds, .Disjunction ds' =>
      match decSL ds ds' with
      | isTrue h => isTrue (by rw [h])
      | isFalse h => isFalse (fun hc => h (by injection hc))
  | .Disjunction _, .Conjunction _ => isFalse (fun h => Sentence.noConfusion h)
  | .Disjunction _, .Implication _ _ => isFalse (fun h => Sentence.noConfusion h)
  | .Disjunction _, .Iff _ _ => isFalse (fun h => Sentence.noConfusion h)
  | .Conjunction _, .Atom _ => isFalse (fun h => Sentence.noConfusion h)
  | .Conjunction _, .Negation _ => isFalse (fun h => Sentence.noConfusion h)
  | .Conjunction _, .Disjunction _ => isFalse (fun h => Sentence.noConfusion h)
  | .Conjunction cs, .Conjunction cs' =>
      match decSL cs cs' with
      | isTrue h => isTrue (by rw [h])
      | isFalse h => isFalse (fun hc => h (by injection hc))
  | .Conjunction _, .Implication _ _ => isFalse (fun h => Sentence.noConfusion h)
  | .Conjunction _, .Iff _ _ => isFalse (fun h => Sentence.noConfusion h)
  | .Implication _ _, .Atom _ => isFalse (fun h => Sentence.noConfusion h)
  | .Implication _ _, .Negation _ => isFalse (fun h => Sentence.noConfusion h)
  | .Implication _ _, .Disjunction _ => isFalse (fun h => Sentence.noConfusion h)
  | .Implication _ _, .Conjunction _ => isFalse (fun h => Sentence.noConfusion h)
  | .Implication a c, .Implication a' c' =>
      match decS a a', decS c c' with
      | isTrue h1, isTrue h2 => isTrue (by rw [h1, h2])
      | isFalse h1, _ => isFalse (fun hc => h1 (by injection hc))
      | _, isFalse h2 => isFalse (fun hc => h2 (by injection hc))
  | .Implication _ _, .Iff _ _ => isFalse (fun h => Sentence.noConfusion h)
  | .Iff _ _, .Atom _ => isFalse (fun h => Sentence.noConfusion h)
  | .Iff _ _, .Negation _ => isFalse (fun h => Sentence.noConfusion h)
  | .Iff _ _, .Disjunction _ => isFalse (fun h => Sentence.noConfusion h)
  | .Iff _ _, .Conjunction _ => isFalse (fun h => Sentence.noConfusion h)
  | .Iff _ _, .Implication _ _ => isFalse (fun h => Sentence.noConfusion h)
  | .Iff l r, .Iff l' r' =>
      match decS l l', decS r r' with
      | isTrue h1, isTrue h2 => isTrue (by rw [h1, h2])
      | isFalse h1, _ => isFalse (fun hc => h1 (by injection hc))
      | _, isFalse h2 => isFalse (fun hc => h2 (by injection hc))

/-- Decidable equality for lists of sentences. -/
def decSL : (a b : List Sentence) → Decidable (a = b)
  | [], [] => isTrue rfl
  | [], _ :: _ => isFalse (fun h => List.noConfusion h)
  | _ :: _, [] => isFalse (fun h => List.noConfusion h)
  | a :: as, b :: bs =>
      match decS a b, decSL as bs with
      | isTrue h1, isTrue h2 => isTrue (by rw [h1, h2])
      | isFalse h1, _ => isFalse (fun hc => h1 (by injection hc))
      | _, isFalse h2 => isFalse (fun hc => h2 (by injection hc))

end

instance : DecidableEq Sentence := decS

mutual

/-- Sentence.evaluate from `sentence.py`.  Base facts are modelled as a total
function from atom labels to booleans (every use in the source supplies all
referenced atoms; a missing atom would raise `KeyError` in Python). -/
def evalS : Sentence → (String → Bool) → Bool
  | .Atom l, b => b l
  | .Negation s, b => !(evalS s b)
  | .Disjunction ds, b => evalAny ds b
  | .Conjunction cs, b => evalAll cs b
  | .Implication a c, b => !(evalS a b) || evalS c b
  | .Iff l r, b => (evalS l b) == (evalS r b)

/-- Python `any(term.evaluate(b) for term in self.disjuncts)`. -/
def evalAny : List Sentence → (String → Bool) → Bool
  | [], _ => false
  | s :: rest, b => evalS s b || evalAny rest b

/-- Python `all(term.evaluate(b) for term in self.conjuncts)`. -/
def evalAll : List Sentence → (String → Bool) → Bool
  | [], _ => true
  | s :: rest, b => evalS s b && evalAll rest b

end

mutual

/-- Sentence.atoms from `sentence.py`, as a list of labels (the source returns
a set; only membership is ever used). -/
def atomsS : Sentence → List String
  | .Atom l => [l]
  | .Negation s => atomsS s
  | .Disjunction ds => atomsL ds
  | .Conjunction cs => atomsL cs
  | .Implication a c => atomsS a ++ atomsS c
  | .Iff l r => atomsS l ++ atomsS r

/-- Union of the atoms of a list of sentences. -/
def atomsL : List Sentence → List String
  | [] => []
  | s :: rest => atomsS s ++ atomsL rest

end

/-- A belief state: Python dict from sentence to credence. -/
abbrev BeliefState := List (Sentence × ℚ)

/-- Python `dict.get(sentence, 0.)` on a belief state. -/
def bsGet (st : BeliefState) (s : Sentence) : ℚ :=
  ((st.lookup s).getD 0)

/-- Credence history from `credence.py`: an ordered list of belief states. -/
structure History where
  credences : List BeliefState
deriving DecidableEq

/-- History.lookup: 1-based day index, asserts `1 <= day <= len`; the failed
assertion is modelled as `none`. -/
def History.lookup (h : History) (s : Sentence) (day : ℕ) : Option ℚ :=
  if 1 ≤ day ∧ day ≤ h.credences.length then
    some (bsGet (h.credences.getD (day - 1) []) s)
  else
    none

/-- History.price: `self._credences[-1].get(sentence, 0.)`.  Indexing `[-1]`
on an empty list raises `IndexError`, modelled as `none`. -/
def History.price (h : History) (s : Sentence) : Option ℚ :=
  match h.credences.getLast? with
  | none => none
  | some st => some (bsGet st s)

/-- History.with_next_update: returns an extended history. -/
def History.withNextUpdate (h : History) (st : BeliefState) : History :=
  ⟨h.credences ++ [st]⟩

/-- Trading formulas from `formula.py`.  Sum/Product/Max/Min take any number
of terms (`*terms` in the source). -/
inductive Formula where
  | Constant (k : ℚ)
  | Price (s : Sentence) (day : ℕ)
  | Sum (terms : List Formula)
  | Product (terms : List Formula)
  | Max (terms : List Formula)
  | Min (terms : List Formula)
  | SafeReciprocal (x : Formula)

mutual

/-- Formula.evaluate from `formula.py`.  `Price` bounds-checks its lookup;
`Product` over no terms raises (Python `reduce` with no initial value), and
`Max`/`Min` over no terms raise (`max()`/`min()` of an empty sequence); these
raises are modelled as `none`. -/
def evalF : Formula → History → Option ℚ
  | .Constant k, _ => some k
  | .Price s day, h => h.lookup s day
  | .Sum ts, h => do
      let vs ← evalFL ts h
      pure vs.sum
  | .Product ts, h => do
      let vs ← evalFL ts h
      match vs with
      | [] => none
      | v :: rest => pure (rest.foldl (· * ·) v)
  | .Max ts, h => do
      let vs ← evalFL ts h
      match vs with
      | [] => none
      | v :: rest => pure (rest.foldl max v)
  | .Min ts, h => do
      let vs ← evalFL ts h
      match vs with
      | [] => none
      | v :: rest => pure (rest.foldl min v)
  | .SafeReciprocal x, h => do
      let v ← evalF x h
      pure (1 / max 1 v)

/-- Evaluate a list of formulas left to right, propagating any raise. -/
def evalFL : List Formula → History → Option (List ℚ)
  | [], _ => some []
  | t :: rest, h => do
      let v ← evalF t h
      let vs ← evalFL rest h
      pure (v :: vs)

end

mutual

/-- Formula.bound from `formula.py`: Constant `|k|`, Price `1`, Sum the sum of
bounds, Product the product of bounds, Max the max of bounds, Min the min of
bounds (as written in the source), SafeReciprocal `1`. -/
def boundF : Formula → Option ℚ
  | .Constant k => some |k|
  | .Price _ _ => some 1
  | .Sum ts => do
      let vs ← boundFL ts
      pure vs.sum
  | .Product ts => do
      let vs ← boundFL ts
      match vs with
      | [] => none
      | v :: rest => pure (rest.foldl (· * ·) v)
  | .Max ts => do
      let vs ← boundFL ts
      match vs with
      | [] => none
      | v :: rest => pure (rest.foldl max v)
  | .Min ts => do
      let vs ← boundFL ts
      match vs with
      | [] => none
      | v :: rest => pure (rest.foldl min v)
  | .SafeReciprocal _ => some 1

/-- Bounds of a list of formulas. -/
def boundFL : List Formula → Option (List ℚ)
  | [] => some []
  | t :: rest => do
      let v ← boundF t
      let vs ← boundFL rest
      pure (v :: vs)

end

mutual

/-- Formula.domain from `formula.py`, as a list of sentences (the source
returns a set; only membership is used downstream). -/
def domainF : Formula → List Sentence
  | .Constant _ => []
  | .Price s _ => [s]
  | .Sum ts => domainFL ts
  | .Product ts => domainFL ts
  | .Max ts => domainFL ts
  | .Min ts => domainFL ts
  | .SafeReciprocal x => domainF x

/-- Union of the domains of a list of formulas. -/
def domainFL : List Formula → List Sentence
  | [] => []
  | t :: rest => domainF t ++ domainFL rest

end

/-- A trading policy: Python dict from sentence to trading formula, modelled
as an association list. -/
abbrev TradingPolicy := List (Sentence × Formula)

/-- Keys of a trading policy. -/
def keysOf (tp : TradingPolicy) : List Sentence := tp.map Prod.fst

/-- Deduplication of a list, modelling a Python `set` (only membership in the
result is ever relevant). -/
def dedupL {α : Type} [DecidableEq α] : List α → List α
  | [] => []
  | a :: rest => if a ∈ dedupL rest then dedupL rest else a :: dedupL rest

/-- The `evaluate` free function from `inductor.py`: the value of the trades
executed by a trading policy in a given world, summing
`quantity * (payout - price)` over the policy entries.  The world is the total
extension of the Python world dict (which is only ever indexed at policy
keys). -/
def evaluateTP : TradingPolicy → History → (Sentence → Bool) → Option ℚ
  | [], _, _ => some 0
  | (s, f) :: rest, h, w => do
      let q ← evalF f h
      let p ← h.price s
      let acc ← evaluateTP rest h w
      pure (q * ((if w s then 1 else 0) - p) + acc)

/-- A world over a list of support sentences, from a vector of truth values
(Python `dict(zip(support, truth_values))`, totalized with default false). -/
def worldOf (support : List Sentence) (vec : List Bool) : Sentence → Bool :=
  fun s => ((support.zip vec).lookup s).getD false

/-- All boolean vectors of a given length, in the order of
`itertools.product((True, False), repeat=n)`. -/
def allVectors : ℕ → List (List Bool)
  | 0 => [[]]
  | n + 1 => [true, false].flatMap (fun v => (allVectors n).map (v :: ·))

/-- The inner world check of `find_credences`: `some true` if the
value-of-holdings is at most the tolerance in every world, `some false` if
some world exceeds it (the candidate is rejected), `none` if an evaluation
raised. -/
def checkWorlds (tp : TradingPolicy) (h' : History) (support : List Sentence)
    (tol : ℚ) : List (List Bool) → Option Bool
  | [] => some true
  | vec :: rest =>
      match evaluateTP tp h' (worldOf support vec) with
      | none => none
      | some v => if v > tol then some false else checkWorlds tp h' support tol rest

/-- The candidate loop of `find_credences`. -/
def searchLoop (tp : TradingPolicy) (h : History) (support : List Sentence)
    (tol : ℚ) : List BeliefState → Option BeliefState
  | [] => none
  | c :: rest =>
      match checkWorlds tp (h.withNextUpdate c) support tol (allVectors support.length) with
      | none => none
      | some true => some c
      | some false => searchLoop tp h support tol rest

/-- The credence search domain of `find_credences`: the union of the domains
of the policy's formulas with the policy's support. -/
def searchDomain (tp : TradingPolicy) : List Sentence :=
  dedupL ((tp.map Prod.snd).flatMap domainF ++ keysOf tp)

/-- The `find_credences` free function from `inductor.py`.  The candidate
search order is supplied as a function of the search domain (Python's
`credence_search_order`); exhausting the supplied candidates models a search
that has not yet found an answer. -/
def findCredences (tp : TradingPolicy) (h : History) (tol : ℚ)
    (searchOrder : List Sentence → List BeliefState) : Option BeliefState :=
  searchLoop tp h (dedupL (keysOf tp)) tol (searchOrder (searchDomain tp))

/-- The `allocations_of` enumerator from `enumerator.py`: all ways to divide
`balls` identical balls among `jars` jars.  (The source is a generator that is
never invoked with zero jars; zero jars yields nothing here.) -/
def allocations_of : ℕ → ℕ → List (List ℕ)
  | _, 0 => []
  | balls, 1 => [[balls]]
  | balls, j + 2 =>
      (List.range (balls + 1)).flatMap
        (fun i => (allocations_of (balls - i) (j + 1)).map (fun sub => i :: sub))

/-- The first `ndenoms` denominator rounds of `rationals_between(a, b)` from
`enumerator.py`: for each denominator `d = 1, 2, ...`, the values
`a + (b - a) * p / d` for `p = 0 .. d`. -/
def ratsBetween (a b : ℚ) (ndenoms : ℕ) : List ℚ :=
  (List.range ndenoms).flatMap
    (fun d => (List.range (d + 2)).map (fun p => a + (b - a) * ((p : ℚ) / ((d + 1 : ℕ) : ℚ))))

/-- The `product` enumerator from `enumerator.py` applied to a finite prefix
of its (infinite) input sequence: for each index `i`, emit the tuples indexed
by `allocations_of(i, length)` into the cache of the first `i + 1` elements. -/
def productL (atoms : List ℚ) (length : ℕ) : List (List ℚ) :=
  (List.range atoms.length).flatMap
    (fun i => (allocations_of i length).map (fun js => js.map (fun j => atoms.getD j 0)))

/-- The `rational_credences` default search order from `inductor.py`, over the
rationals enumerated from the first `ndenoms` denominator rounds. -/
def rationalCredences (ndenoms : ℕ) (sentences : List Sentence) : List BeliefState :=
  (productL (ratsBetween 0 1 ndenoms) sentences.length).map (fun cs => sentences.zip cs)

/-- Insert a string into a sorted list. -/
def insertSorted (x : String) : List String → List String
  | [] => [x]
  | y :: rest => if x ≤ y then x :: y :: rest else y :: insertSorted x rest

/-- Insertion sort for strings (Python `sorted`). -/
def sortS : List String → List String
  | [] => []
  | x :: rest => insertSorted x (sortS rest)

/-- Python `sorted(set(...))` over atom labels. -/
def sortAtoms (l : List String) : List String := sortS (dedupL l)

/-- Base facts from an atom list and a truth-value vector
(`dict(zip(atoms, truth_values))`, totalized with default false). -/
def mkFacts (atoms : List String) (vec : List Bool) : String → Bool :=
  fun a => ((atoms.zip vec).lookup a).getD false

/-- The `worlds_consistent_with` free function from `inductor.py`: every truth
assignment over the atoms of the domain and observations that makes all
observations true, emitted as the evaluation function over sentences (the
total extension of the Python world dict, which is only ever indexed at domain
sentences). -/
def worldsConsistentWith (observations domain : List Sentence) : List (Sentence → Bool) :=
  let atoms := sortAtoms (atomsL domain ++ atomsL observations)
  (allVectors atoms.length).filterMap (fun vec =>
    let b := mkFacts atoms vec
    if observations.all (fun s => evalS s b) then some (fun s => evalS s b) else none)

/-- Support of a trading history: the union of the keys of its policies. -/
def supportOf (hist : List TradingPolicy) : List Sentence :=
  dedupL (hist.flatMap keysOf)

/-- The inner prefix check of `compute_budget_factor` for a single world:
walk the trading policies in order, accumulating value; `some true` when some
partial sum falls below `-budget + 1e-7` (the trader is bankrupt). -/
def checkWorld (B : ℚ) (creds : History) (w : Sentence → Bool) :
    ℚ → List TradingPolicy → Option Bool
  | _, [] => some false
  | acc, p :: rest =>
      match evaluateTP p creds w with
      | none => none
      | some v =>
          if acc + v < -B + 1 / 10000000 then some true
          else checkWorld B creds w (acc + v) rest

/-- The prefix check over a list of worlds. -/
def worldsCheck (B : ℚ) (creds : History) (hist : List TradingPolicy) :
    List (Sentence → Bool) → Option Bool
  | [] => some false
  | w :: ws =>
      match checkWorld B creds w 0 hist with
      | none => none
      | some true => some true
      | some false => worldsCheck B creds hist ws

/-- The outer prefix loop of `compute_budget_factor` over prefix indices. -/
def bcLoop (B : ℚ) (obs : List Sentence) (hist : List TradingPolicy)
    (creds : History) (support : List Sentence) : List ℕ → Option Bool
  | [] => some false
  | i :: rest =>
      match worldsCheck B creds (hist.take (i + 1))
          (worldsConsistentWith (obs.take (i + 1)) support) with
      | none => none
      | some true => some true
      | some false => bcLoop B obs hist creds support rest

/-- Step 1 of `compute_budget_factor` (the `if` clause of (5.2.1)): `some
true` when the trader has already overrun its budget in some consistent world
at some prefix of the history. -/
def bankruptCheck (B : ℚ) (obs : List Sentence) (hist : List TradingPolicy)
    (creds : History) : Option Bool :=
  bcLoop B obs hist creds (supportOf hist) (List.range obs.length)

/-- The trader's accumulated value over a whole trading history in a world. -/
def accValue (hist : List TradingPolicy) (creds : History) (w : Sentence → Bool) :
    Option ℚ :=
  match hist with
  | [] => some 0
  | p :: rest => do
      let v ← evaluateTP p creds w
      let r ← accValue rest creds w
      pure (v + r)

/-- Step 2 of `compute_budget_factor`: for each consistent world, the divisor
formula `Constant(1/remaining) * (Constant(-1) * Σ over the next policy of
f * (payout - Price(s, n+1)))`; the source's
`assert remaining_budget > 1e-8` is modelled by the `none` branch. -/
def worldDivisors (B : ℚ) (hist : List TradingPolicy) (nextTP : TradingPolicy)
    (creds : History) (n : ℕ) : List (Sentence → Bool) → Option (List Formula)
  | [] => some []
  | w :: ws =>
      match accValue hist creds w with
      | none => none
      | some acc =>
          let remaining := B + acc
          if remaining > 1 / 100000000 then
            match worldDivisors B hist nextTP creds n ws with
            | none => none
            | some rest =>
                let terms := nextTP.map (fun sf =>
                  Formula.Product [sf.2,
                    Formula.Sum [Formula.Constant (if w sf.1 then 1 else 0),
                      Formula.Product [Formula.Constant (-1), Formula.Price sf.1 (n + 1)]]])
                some (Formula.Product [Formula.Constant (1 / remaining),
                  Formula.Product [Formula.Constant (-1), Formula.Sum terms]] :: rest)
          else none

/-- The `compute_budget_factor` free function from `inductor.py`.  `none`
models a raised exception (a failed assertion or an evaluation error). -/
def computeBudgetFactor (B : ℚ) (obs : List Sentence) (nextObs : Sentence)
    (hist : List TradingPolicy) (nextTP : TradingPolicy) (creds : History) :
    Option Formula :=
  if B > 0 then
    match bankruptCheck B obs hist creds with
    | none => none
    | some true => some (Formula.Constant 0)
    | some false =>
        match worldDivisors B hist nextTP creds obs.length
            (worldsConsistentWith (obs ++ [nextObs])
              (dedupL (supportOf hist ++ keysOf nextTP))) with
        | none => none
        | some divisors => some (Formula.SafeReciprocal (Formula.Max divisors))
  else none

/-- The `enumerate` loop of row clipping, carrying the running index. -/
def clipRowFrom (k : ℕ) : ℕ → List TradingPolicy → List TradingPolicy
  | _, [] => []
  | i, p :: rest => (if i < k then [] else p) :: clipRowFrom k (i + 1) rest

/-- Row clipping in `combine_trading_algorithms`: entries at indices `< k` are
replaced by the empty policy. -/
def clipRow (k : ℕ) (row : List TradingPolicy) : List TradingPolicy :=
  clipRowFrom k 0 row

/-- Accumulation of `2 * bound` over the entries of one policy. -/
def netBoundPolicy : TradingPolicy → Option ℚ
  | [] => some 0
  | sf :: rest => do
      let b ← boundF sf.2
      let r ← netBoundPolicy rest
      pure (2 * b + r)

/-- Accumulation of `2 * bound` over all entries of a clipped row. -/
def netBoundRow : List TradingPolicy → Option ℚ
  | [] => some 0
  | p :: rest => do
      let v ← netBoundPolicy p
      let r ← netBoundRow rest
      pure (v + r)

/-- `net_value_bound` in `combine_trading_algorithms`: the ceiling of the
accumulated `2 * bound` over the clipped row. -/
def netValueBound (row : List TradingPolicy) : Option ℤ :=
  (netBoundRow row).map (fun q => ⌈q⌉)

/-- The budget loop of `combine_trading_algorithms` for row `k`: one weighted,
budget-scaled term per sentence of the last policy, per budget. -/
def budgetLoop (k : ℕ) (pastObs : List Sentence) (lastObs : Sentence)
    (pastPolicies : List TradingPolicy) (lastPolicy : TradingPolicy)
    (creds : History) : List ℕ → Option (List (Sentence × Formula))
  | [] => some []
  | b :: rest =>
      match computeBudgetFactor (b : ℚ) pastObs lastObs pastPolicies lastPolicy creds with
      | none => none
      | some bf =>
          match budgetLoop k pastObs lastObs pastPolicies lastPolicy creds rest with
          | none => none
          | some tail =>
              some ((lastPolicy.map (fun sf =>
                (sf.1, Formula.Product
                  [Formula.Constant ((2 : ℚ) ^ (-(k : ℤ) - 1 - (b : ℤ))), bf, sf.2]))) ++ tail)

/-- All terms contributed by one (already clipped) row in
`combine_trading_algorithms`: the budget loop over budgets `1 ..
net_value_bound`, followed by one tail term per sentence of the last
policy. -/
def rowTerms (k : ℕ) (clipped : List TradingPolicy) (obs : List Sentence)
    (creds : History) : Option (List (Sentence × Formula)) :=
  match netValueBound clipped with
  | none => none
  | some nvb =>
      match clipped.getLast?, obs.getLast? with
      | some lastPolicy, some lastObs =>
          match budgetLoop k obs.dropLast lastObs clipped.dropLast lastPolicy creds
              (List.range' 1 nvb.toNat) with
          | none => none
          | some terms =>
              some (terms ++ lastPolicy.map (fun sf =>
                (sf.1, Formula.Product
                  [Formula.Constant ((2 : ℚ) ^ (-(k : ℤ) - 1 - nvb)), sf.2])))
      | _, _ => none

/-- The loop over algorithm rows of `combine_trading_algorithms`. -/
def rowsLoop (obs : List Sentence) (creds : History) :
    List (ℕ × List TradingPolicy) → Option (List (Sentence × Formula))
  | [] => some []
  | kr :: rest => do
      let t ← rowTerms kr.1 (clipRow kr.1 kr.2) obs creds
      let r ← rowsLoop obs creds rest
      pure (t ++ r)

/-- Keep-first deduplication, modelling the key order of a Python
`defaultdict` (first insertion wins). -/
def dedupF {α : Type} [DecidableEq α] : List α → List α
  | [] => []
  | a :: rest => a :: (dedupF rest).filter (fun x => x ≠ a)

/-- Group accumulated `(sentence, term)` pairs by sentence, preserving first
insertion order of keys and append order of terms. -/
def groupBySentence (l : List (Sentence × Formula)) : List (Sentence × List Formula) :=
  (dedupF (l.map Prod.fst)).map
    (fun s => (s, (l.filter (fun sf => sf.1 = s)).map Prod.snd))

/-- The `combine_trading_algorithms` free function from `inductor.py`
(TradingFirm, 5.3.2).  The two leading `assert`s are modelled by the length
check. -/
def combineTradingAlgorithms (histories : List (List TradingPolicy))
    (obs : List Sentence) (creds : History) : Option TradingPolicy :=
  let n := creds.credences.length + 1
  if obs.length = n ∧ histories.length = n then
    match rowsLoop obs creds histories.enum with
    | none => none
    | some allTerms =>
        some ((groupBySentence allTerms).map (fun st => (st.1, Formula.Sum st.2)))
  else none

/-- The mutable state of a `LogicalInductor`.  A trading algorithm (a Python
generator) is modelled as the list of policies it has yet to yield; an empty
list raises `StopIteration` when drawn from. -/
structure InductorState where
  observationHistory : List Sentence
  tradingAlgorithms : List (List TradingPolicy)
  tradingHistories : List (List TradingPolicy)
  credenceHistory : History

/-- Draw one policy from each previously admitted algorithm, appending it to
the algorithm's trading history; mirrors the in-place mutation order of the
source loop: when some algorithm is exhausted, the histories of the algorithms
before it have already been extended (third component `false` = raised). -/
def drain : List (List TradingPolicy) → List (List TradingPolicy) →
    List (List TradingPolicy) × List (List TradingPolicy) × Bool
  | [], hs => ([], hs, true)
  | as, [] => (as, [], true)
  | a :: as, h :: hs =>
      match a with
      | [] => ([] :: as, h :: hs, false)
      | p :: rest =>
          let r := drain as hs
          (rest :: r.1, (h ++ [p]) :: r.2.1, r.2.2)

/-- The tail of `LogicalInductor.update` after the observation append and the
policy draws: build the ensemble policy, search for credences at tolerance
`2^(-n)` where `n` is the number of observations so far, and commit the
credence append only on success. -/
def updateAfterDraw (st2 : InductorState)
    (searchOrder : List Sentence → List BeliefState) : InductorState × Option BeliefState :=
  match combineTradingAlgorithms st2.tradingHistories st2.observationHistory
      st2.credenceHistory with
  | none => (st2, none)
  | some ensemble =>
      match findCredences ensemble st2.credenceHistory
          ((2 : ℚ) ^ (-(st2.observationHistory.length : ℤ))) searchOrder with
      | none => (st2, none)
      | some credences =>
          ({ st2 with credenceHistory := st2.credenceHistory.withNextUpdate credences },
           some credences)

/-- `LogicalInductor.update` from `inductor.py`, with each in-place mutation
of the Python object applied in source order; the second component is the
returned belief state, `none` when an error was raised (in which case the
first component is the state the inductor was left in). -/
def update (st : InductorState) (observation : Sentence) (alg : List TradingPolicy)
    (searchOrder : List Sentence → List BeliefState) : InductorState × Option BeliefState :=
  if (drain st.tradingAlgorithms st.tradingHistories).2.2 = false then
    ({ observationHistory := st.observationHistory ++ [observation],
       tradingAlgorithms := (drain st.tradingAlgorithms st.tradingHistories).1,
       tradingHistories := (drain st.tradingAlgorithms st.tradingHistories).2.1,
       credenceHistory := st.credenceHistory }, none)
  else
    updateAfterDraw
      { observationHistory := st.observationHistory ++ [observation],
        tradingAlgorithms := (drain st.tradingAlgorithms st.tradingHistories).1
          ++ [alg.drop (st.observationHistory ++ [observation]).length],
        tradingHistories := (drain st.tradingAlgorithms st.tradingHistories).2.1
          ++ [alg.take (st.observationHistory ++ [observation]).length],
        credenceHistory := st.credenceHistory } searchOrder

/-- A constructed `Atom` object as it exists at Python runtime: the structural
content (its `label` argument) together with its allocation identity.
`sentence.py` defines neither `__eq__` nor `__hash__` on `Sentence` or `Atom`,
so CPython's defaults apply: `==` is object identity and `hash` is derived
injectively from the object id. -/
structure PyAtom where
  addr : ℕ
  label : String
deriving DecidableEq

/-- CPython default `__eq__` (object identity) for `Atom` instances. -/
def pyEq (a b : PyAtom) : Bool := a.addr == b.addr

/-- CPython default `__hash__` (derived injectively from the object id) for
`Atom` instances. -/
def pyHash (a : PyAtom) : ℕ := a.addr

/-- Spec-side quantity for the ensemble combinator: the sum of `expr.bound()`
over all `(sentence, expr)` entries of a (clipped) row, written independently
of the source's accumulation loop; the claim states that `net_value_bound` is
the ceiling of twice this sum. -/
def specBoundSum (row : List TradingPolicy) : ℚ :=
  ((row.flatMap (fun p => p)).map (fun sf => (boundF sf.2).getD 0)).sum

/-- Concrete fixture: the atom used by the combinator example. -/
def wA : Sentence := .Atom "a"

/-- Concrete fixture: a one-entry trading policy buying `1/4` tokens of the
atom unconditionally. -/
def wPolicy : TradingPolicy := [(wA, .Constant (1 / 4))]

/-- Concrete fixture: the budget factor that `compute_budget_factor` builds
for `wPolicy` on the first update with observation `wA` and budget 1. -/
def wBF : Formula :=
  .SafeReciprocal (.Max [.Product [.Constant 1, .Product [.Constant (-1),
    .Sum [.Product [.Constant (1 / 4),
      .Sum [.Constant 1, .Product [.Constant (-1), .Price wA 1]]]]]]])

end LogInd

open LogInd

/-- C2: the claim states that for every trading formula, `|evaluate| ≤ bound`
whenever all referenced prices are defined and lie in [0,1].  The code violates
this for `Min`, whose `bound` returns the minimum of the children's bounds:
`Min(Constant(-5), Constant(1))` references no prices, evaluates to `-5`, yet
has `bound() = 1`.  This contradicts the docstring of `Formula.bound` in
`formula.py` ("Get an upper bound on the absolute value of this formula for
any credence history"), so the code, not the claim, is wrong. -/
theorem claim_C2_min_bound_violation :
    evalF (Formula.Min [Formula.Constant (-5), Formula.Constant 1]) ⟨[]⟩ = some (-5)
    ∧ boundF (Formula.Min [Formula.Constant (-5), Formula.Constant 1]) = some 1
    ∧ ¬(|(-5 : ℚ)| ≤ 1) := by
  refine ⟨?_, ?_, by norm_num⟩
  · norm_num [evalF, evalFL]
  · norm_num [boundF, boundFL]

/-- C4 (counterexample): on an empty history, `History.price` raises an
`IndexError` (`self._credences[-1]` on an empty list), modelled as `none`; it
does not return the credence 0 that the claim asserts. -/
theorem claim_C4_counterexample :
    History.price ⟨[]⟩ (Sentence.Atom "a") = none
    ∧ History.price ⟨[]⟩ (Sentence.Atom "a") ≠ some 0 := by
  constructor
  · norm_num [History.price]
  · norm_num [History.price]
    intro hc
    exact Option.noConfusion hc

/-- C4 (amended): for every sentence, `History.price` returns the credence
assigned in the most recent belief state — `lookup(sentence, len)`, which is 0
when the sentence is absent — when the history is nonempty, and raises
(`none`) when the history is empty. -/
theorem claim_C4_price_spec (h : History) (s : Sentence) :
    History.price h s =
      if 0 < h.credences.length then History.lookup h s h.credences.length else none := by
  obtain ⟨l⟩ := h
  cases l with
  | nil => simp [History.price, History.lookup]
  | cons a as =>
      simp only [History.price, History.lookup, List.length_cons]
      rw [List.getLast?_eq_getElem?]
      have hlt : (a :: as).length - 1 < (a :: as).length := by simp
      rw [List.getElem?_eq_getElem hlt]
      have hcond : (0 : ℕ) < as.length + 1 := Nat.succ_pos _
      have hif : 1 ≤ as.length + 1 ∧ as.length + 1 ≤ (a :: as).length := by simp
      simp only [if_pos hcond, if_pos hif]
      rw [List.getD_eq_getElem?_getD]
      rw [List.getElem?_eq_getElem (by simp : as.length + 1 - 1 < (a :: as).length)]
      simp

/-- C7 (counterexample): two separately constructed `Atom("a")` objects are
structurally equal (same constructor, equal label) yet `==` on them is false,
because `sentence.py` defines no `__eq__` and CPython's default is object
identity. -/
theorem claim_C7_counterexample :
    (PyAtom.mk 0 "a").label = (PyAtom.mk 1 "a").label
    ∧ pyEq (PyAtom.mk 0 "a") (PyAtom.mk 1 "a") = false := ⟨rfl, rfl⟩

/-- C7 (amended): equality and hashing of sentence objects follow CPython's
defaults, which are identity-based, not structural: an object equals itself,
and two `Atom` objects compare equal exactly when they are the same allocation
(equal id), in which case their hashes also agree. -/
theorem claim_C7_identity_semantics (a b : PyAtom) :
    pyEq a a = true
    ∧ (pyEq a b = true ↔ a.addr = b.addr)
    ∧ (pyHash a = pyHash b ↔ a.addr = b.addr) := by
  refine ⟨?_, ?_, Iff.rfl⟩
  · simp [pyEq]
  · simp [pyEq]

/-- C10: whenever the inner formula evaluates (to any rational, of any sign,
with no constraint on the prices in the history), `SafeReciprocal` evaluates
to `1 / max(1, x)`, which is strictly positive and at most 1. -/
theorem claim_C10_safe_reciprocal (x : Formula) (h : History) (v : ℚ)
    (hv : evalF x h = some v) :
    evalF (Formula.SafeReciprocal x) h = some (1 / max 1 v)
    ∧ 0 < 1 / max 1 v
    ∧ 1 / max 1 v ≤ 1 := by
  have h1 : (1 : ℚ) ≤ max 1 v := le_max_left _ _
  have h0 : (0 : ℚ) < max 1 v := lt_of_lt_of_le one_pos h1
  refine ⟨?_, ?_, ?_⟩
  · simp [evalF, hv]
  · exact div_pos one_pos h0
  · rw [div_le_one h0]; exact h1

/-- Witness for C10 at the inner formula `Constant(-5)` on the empty
history. -/
theorem claim_C10_witness :
    evalF (Formula.SafeReciprocal (Formula.Constant (-5))) ⟨[]⟩ = some (1 / max 1 (-5 : ℚ))
    ∧ 0 < 1 / max 1 (-5 : ℚ)
    ∧ 1 / max 1 (-5 : ℚ) ≤ 1 :=
  claim_C10_safe_reciprocal (Formula.Constant (-5)) ⟨[]⟩ (-5) rfl

/-- Membership is preserved by `dedupL`. -/
theorem mem_dedupL {α : Type} [DecidableEq α] (a : α) :
    ∀ l : List α, a ∈ dedupL l ↔ a ∈ l := by
  intro l
  induction l with
  | nil => simp [dedupL]
  | cons x rest ih =>
      simp only [dedupL]
      split
      · next hx =>
          rw [ih]
          simp only [List.mem_cons]
          constructor
          · exact Or.inr
          · rintro (rfl | h)
            · exact ih.mp hx
            · exact h
      · simp [ih]

/-- Every boolean vector of length `n` appears in `allVectors n`. -/
theorem allVectors_complete : ∀ v : List Bool, v ∈ allVectors v.length := by
  intro v
  induction v with
  | nil => simp [allVectors]
  | cons b bs ih =>
      simp only [List.length_cons, allVectors, List.mem_flatMap, List.mem_map]
      exact ⟨b, by cases b <;> simp, bs, ih, rfl⟩

/-- Extraction for `checkWorlds`: acceptance means every checked world
evaluated to a value at most the tolerance. -/
theorem checkWorlds_true (tp : TradingPolicy) (h' : History) (support : List Sentence)
    (tol : ℚ) : ∀ ws, checkWorlds tp h' support tol ws = some true →
    ∀ vec ∈ ws, ∃ v, evaluateTP tp h' (worldOf support vec) = some v ∧ v ≤ tol := by
  intro ws
  induction ws with
  | nil => intro _ vec hvec; simp at hvec
  | cons vec0 rest ih =>
      intro hck vec hvec
      rw [checkWorlds] at hck
      rcases he : evaluateTP tp h' (worldOf support vec0) with _ | v
      · rw [he] at hck; exact absurd hck (by simp)
      · rw [he] at hck
        change (if v > tol then some false else checkWorlds tp h' support tol rest)
          = some true at hck
        by_cases hv : v > tol
        · rw [if_pos hv] at hck; exact absurd hck (by simp)
        · rw [if_neg hv] at hck
          rcases List.mem_cons.mp hvec with rfl | hmem
          · exact ⟨v, he, not_lt.mp hv⟩
          · exact ih hck vec hmem

/-- Extraction for `searchLoop`: a returned candidate passed the world
check. -/
theorem searchLoop_post (tp : TradingPolicy) (h : History) (support : List Sentence)
    (tol : ℚ) : ∀ cands c, searchLoop tp h support tol cands = some c →
    checkWorlds tp (h.withNextUpdate c) support tol (allVectors support.length) = some true := by
  intro cands
  induction cands with
  | nil => intro c hc; exact absurd hc (by simp [searchLoop])
  | cons c0 rest ih =>
      intro c hc
      rw [searchLoop] at hc
      rcases hck : checkWorlds tp (h.withNextUpdate c0) support tol (allVectors support.length) with _ | b
      · rw [hck] at hc; exact absurd hc (by simp)
      · rw [hck] at hc
        cases b
        · exact ih c hc
        · obtain rfl : c0 = c := by
            change some c0 = some c at hc
            exact Option.some.inj hc
          exact hck

/-- C1: whenever `find_credences` returns a credence mapping `c`, the value of
the policy's holdings on the extended history is at most the tolerance in
every world over the policy's support (every truth assignment to the support
sentences).  The bound is one-sided: only `v ≤ tolerance` is guaranteed, so
arbitrarily negative values (losses for the trader) are accepted. -/
theorem claim_C1_find_credences_post (tp : TradingPolicy) (h : History) (tol : ℚ)
    (searchOrder : List Sentence → List BeliefState) (c : BeliefState)
    (hfind : findCredences tp h tol searchOrder = some c) :
    ∀ vec : List Bool, vec.length = (dedupL (keysOf tp)).length →
      ∃ v, evaluateTP tp (h.withNextUpdate c) (worldOf (dedupL (keysOf tp)) vec) = some v
        ∧ v ≤ tol := by
  intro vec hlen
  rw [findCredences] at hfind
  have hck := searchLoop_post tp h (dedupL (keysOf tp)) tol _ c hfind
  have hvec : vec ∈ allVectors (dedupL (keysOf tp)).length := by
    rw [← hlen]; exact allVectors_complete vec
  exact checkWorlds_true tp _ _ tol _ hck vec hvec

/-- Witness for C1: the trivial search of the test suite (policy
`{1: Price(1,1)}`, tolerance 1/2) returns credence 0, and the postcondition
holds for it. -/
theorem claim_C1_witness :
    findCredences [(Sentence.Atom "a", Formula.Price (Sentence.Atom "a") 1)] ⟨[]⟩ (1 / 2)
        (rationalCredences 1) = some [(Sentence.Atom "a", 0)]
    ∧ (∀ vec : List Bool,
        vec.length = (dedupL (keysOf [(Sentence.Atom "a", Formula.Price (Sentence.Atom "a") 1)])).length →
        ∃ v, evaluateTP [(Sentence.Atom "a", Formula.Price (Sentence.Atom "a") 1)]
            (History.withNextUpdate ⟨[]⟩ [(Sentence.Atom "a", 0)])
            (worldOf (dedupL (keysOf [(Sentence.Atom "a", Formula.Price (Sentence.Atom "a") 1)])) vec)
          = some v ∧ v ≤ 1 / 2) := by
  have hf : findCredences [(Sentence.Atom "a", Formula.Price (Sentence.Atom "a") 1)] ⟨[]⟩ (1 / 2)
      (rationalCredences 1) = some [(Sentence.Atom "a", 0)] := by
    norm_num [findCredences, searchLoop, checkWorlds, evaluateTP, rationalCredences, productL,
      ratsBetween, allocations_of, searchDomain, dedupL, keysOf, domainF, domainFL, allVectors,
      worldOf, evalF, evalFL, History.price, History.lookup, History.withNextUpdate, bsGet,
      List.lookup, List.range_succ, List.range_zero, List.getD_cons_zero, List.getD_cons_succ,
      List.getD]
  exact ⟨hf, claim_C1_find_credences_post _ _ _ _ _ hf⟩

/-- C3 (counterexample): an inductor holding one previously admitted trading
algorithm that is exhausted; `update` raises (`next` on the exhausted
generator) but the new observation has already been appended to the
observation history, so the state after the failed call differs from the
state before it. -/
theorem claim_C3_counterexample :
    (update ⟨[Sentence.Atom "a"], [[]], [[[(Sentence.Atom "a", Formula.Constant 1)]]],
        ⟨[[(Sentence.Atom "a", 1 / 2)]]⟩⟩ (Sentence.Atom "b") [] (fun _ => [])).2 = none
    ∧ (update ⟨[Sentence.Atom "a"], [[]], [[[(Sentence.Atom "a", Formula.Constant 1)]]],
        ⟨[[(Sentence.Atom "a", 1 / 2)]]⟩⟩ (Sentence.Atom "b") [] (fun _ => [])).1.observationHistory
      = [Sentence.Atom "a", Sentence.Atom "b"]
    ∧ [Sentence.Atom "a", Sentence.Atom "b"] ≠ [Sentence.Atom "a"] := by
  refine ⟨?_, ?_, by simp⟩
  · simp [update, drain]
  · simp [update, drain]

/-- C3 (amended): when `update` raises, the credence history is unchanged
(the credence append is the last step, committed only after `find_credences`
returns), but the observation history has already been extended with the new
observation: the inductor's state is not rolled back atomically. -/
theorem claim_C3_error_state (st : InductorState) (obs : Sentence)
    (alg : List TradingPolicy) (searchOrder : List Sentence → List BeliefState)
    (hfail : (update st obs alg searchOrder).2 = none) :
    (update st obs alg searchOrder).1.credenceHistory = st.credenceHistory
    ∧ (update st obs alg searchOrder).1.observationHistory
      = st.observationHistory ++ [obs] := by
  rcases hu : update st obs alg searchOrder with ⟨st2, res⟩
  rw [hu] at hfail
  change res = none at hfail
  subst hfail
  unfold update at hu
  split at hu
  · injection hu with h1 h2
    rw [← h1]
    exact ⟨rfl, rfl⟩
  · unfold updateAfterDraw at hu
    split at hu
    · injection hu with h1 h2
      rw [← h1]
      exact ⟨rfl, rfl⟩
    · split at hu
      · injection hu with h1 h2
        rw [← h1]
        exact ⟨rfl, rfl⟩
      · injection hu with h1 h2
        exact absurd h2 (by simp)

/-- Witness for C3 (amended) on a concrete failing update: one exhausted
previously admitted algorithm. -/
theorem claim_C3_witness :
    (update ⟨[Sentence.Atom "x"], [[]], [[[(Sentence.Atom "x", Formula.Constant 2)]]],
        ⟨[[(Sentence.Atom "x", 1 / 4)]]⟩⟩ (Sentence.Atom "y") [] (fun _ => [])).2 = none
    ∧ ((update ⟨[Sentence.Atom "x"], [[]], [[[(Sentence.Atom "x", Formula.Constant 2)]]],
          ⟨[[(Sentence.Atom "x", 1 / 4)]]⟩⟩ (Sentence.Atom "y") [] (fun _ => [])).1.credenceHistory
        = (⟨[[(Sentence.Atom "x", 1 / 4)]]⟩ : History)
      ∧ (update ⟨[Sentence.Atom "x"], [[]], [[[(Sentence.Atom "x", Formula.Constant 2)]]],
          ⟨[[(Sentence.Atom "x", 1 / 4)]]⟩⟩ (Sentence.Atom "y") [] (fun _ => [])).1.observationHistory
        = [Sentence.Atom "x"] ++ [Sentence.Atom "y"]) := by
  have hfail : (update ⟨[Sentence.Atom "x"], [[]], [[[(Sentence.Atom "x", Formula.Constant 2)]]],
      ⟨[[(Sentence.Atom "x", 1 / 4)]]⟩⟩ (Sentence.Atom "y") [] (fun _ => [])).2 = none := by
    simp [update, drain]
  exact ⟨hfail, claim_C3_error_state _ _ _ _ hfail⟩

/-- Sum of a function mapped over `List.range` as a `Finset` sum. -/
theorem list_sum_range_eq (n : ℕ) (f : ℕ → ℕ) :
    ((List.range n).map f).sum = ∑ i ∈ Finset.range n, f i := by
  induction n with
  | zero => simp
  | succ m ih => rw [List.range_succ]; simp [ih, Finset.sum_range_succ]

/-- Hockey-stick identity: summing `C(j + r, r)` for `j = 0 .. n` gives
`C(n + r + 1, r + 1)`. -/
theorem sum_choose_diag (n r : ℕ) :
    (∑ j ∈ Finset.range (n + 1), (j + r).choose r) = (n + r + 1).choose (r + 1) := by
  induction n with
  | zero => simp
  | succ m ih =>
      rw [Finset.sum_range_succ, ih]
      have h2 : m + 1 + r + 1 = (m + r + 1) + 1 := by omega
      have h3 : m + 1 + r = m + r + 1 := by omega
      rw [h2, h3, Nat.choose_succ_succ (m + r + 1) r]
      exact Nat.add_comm _ _

/-- Count of allocations: dividing `n` balls among `j + 1` jars can be done in
`C(n + j, j)` ways. -/
theorem alloc_length (n j : ℕ) : (allocations_of n (j + 1)).length = (n + j).choose j := by
  induction j generalizing n with
  | zero =>
      rw [show allocations_of n 1 = [[n]] from rfl]
      simp
  | succ i ih =>
      rw [show allocations_of n (i + 1 + 1) =
            (List.range (n + 1)).flatMap
              (fun m => (allocations_of (n - m) (i + 1)).map (fun sub => m :: sub)) from rfl]
      rw [List.length_flatMap]
      simp only [Function.comp_def, List.length_map, ih]
      rw [list_sum_range_eq]
      have hrefl := Finset.sum_range_reflect (fun j => (j + i).choose i) (n + 1)
      have : (∑ m ∈ Finset.range (n + 1), (n - m + i).choose i)
          = ∑ j ∈ Finset.range (n + 1), (j + i).choose i := by
        rw [← hrefl]
        apply Finset.sum_congr rfl
        intro x hx
        have : n + 1 - 1 - x = n - x := by omega
        rw [this]
      rw [this, sum_choose_diag]
      rfl

/-- Soundness of allocations: every emitted tuple has the right length and
sums to `n`. -/
theorem alloc_sound (n j : ℕ) :
    ∀ l ∈ allocations_of n (j + 1), l.length = j + 1 ∧ l.sum = n := by
  induction j generalizing n with
  | zero =>
      intro l hl
      simp only [allocations_of, List.mem_singleton] at hl
      subst hl
      simp
  | succ i ih =>
      intro l hl
      rw [show allocations_of n (i + 1 + 1) =
            (List.range (n + 1)).flatMap
              (fun m => (allocations_of (n - m) (i + 1)).map (fun sub => m :: sub)) from rfl] at hl
      rw [List.mem_flatMap] at hl
      obtain ⟨m, hm, hmem⟩ := hl
      rw [List.mem_map] at hmem
      obtain ⟨sub, hsub, rfl⟩ := hmem
      obtain ⟨hlen, hsum⟩ := ih (n - m) sub hsub
      rw [List.mem_range] at hm
      constructor
      · simp [hlen]
      · simp only [List.sum_cons, hsum]
        omega

/-- Completeness of allocations: every tuple of the right length summing to
`n` is emitted. -/
theorem alloc_complete (j : ℕ) :
    ∀ (n : ℕ) (l : List ℕ), l.length = j + 1 → l.sum = n → l ∈ allocations_of n (j + 1) := by
  induction j with
  | zero =>
      intro n l hlen hsum
      match l, hlen with
      | [x], _ =>
          simp only [List.sum_cons, List.sum_nil, Nat.add_zero] at hsum
          subst hsum
          simp [allocations_of]
  | succ i ih =>
      intro n l hlen hsum
      match l, hlen with
      | m :: sub, hlen =>
          have hslen : sub.length = i + 1 := by simpa using hlen
          have hsd : m + sub.sum = n := by simpa using hsum
          rw [show allocations_of n (i + 1 + 1) =
                (List.range (n + 1)).flatMap
                  (fun m => (allocations_of (n - m) (i + 1)).map (fun sub => m :: sub)) from rfl]
          rw [List.mem_flatMap]
          refine ⟨m, ?_, ?_⟩
          · rw [List.mem_range]; omega
          · rw [List.mem_map]
            exact ⟨sub, ih (n - m) sub hslen (by omega), rfl⟩

/-- C9: for every `n ≥ 0` and `k ≥ 1`, `allocations_of(n, k)` yields exactly
`C(n + k - 1, k - 1)` tuples, each of length `k` with nonnegative entries
summing to `n`, and every such tuple appears. -/
theorem claim_C9_allocations (n k : ℕ) (hk : 1 ≤ k) :
    (allocations_of n k).length = (n + k - 1).choose (k - 1)
    ∧ (∀ l ∈ allocations_of n k, l.length = k ∧ l.sum = n)
    ∧ (∀ l : List ℕ, l.length = k → l.sum = n → l ∈ allocations_of n k) := by
  obtain ⟨j, rfl⟩ : ∃ j, k = j + 1 := ⟨k - 1, by omega⟩
  refine ⟨?_, alloc_sound n j, alloc_complete j n⟩
  rw [alloc_length]
  rfl

/-- Witness for C9 at `n = 2`, `k = 2`. -/
theorem claim_C9_witness :
    1 ≤ 2
    ∧ ((allocations_of 2 2).length = (2 + 2 - 1).choose (2 - 1)
      ∧ (∀ l ∈ allocations_of 2 2, l.length = 2 ∧ l.sum = 2)
      ∧ (∀ l : List ℕ, l.length = 2 → l.sum = 2 → l ∈ allocations_of 2 2)) :=
  ⟨by norm_num, claim_C9_allocations 2 2 (by norm_num)⟩

/-- C8: on the empty history, with policy
`{1: Sum(Constant(1), Product(Constant(-3), Price(1,1)))}` and tolerance
`10⁻⁵`, `find_credences` with the default rational search order returns
exactly the credence 1/3 for the sentence, and the preceding candidates
offered by the default enumeration are 0, 1, 0, 1/2, 1, 0 (all rejected, as
1/3 is what is returned). -/
theorem claim_C8_one_variable_search :
    findCredences
        [(Sentence.Atom "1",
          Formula.Sum [Formula.Constant 1,
            Formula.Product [Formula.Constant (-3), Formula.Price (Sentence.Atom "1") 1]])]
        ⟨[]⟩ (1 / 100000)
        (rationalCredences 3)
      = some [(Sentence.Atom "1", 1 / 3)]
    ∧ ((rationalCredences 3
          (searchDomain
            [(Sentence.Atom "1",
              Formula.Sum [Formula.Constant 1,
                Formula.Product [Formula.Constant (-3), Formula.Price (Sentence.Atom "1") 1]])])).take 7).map
        (fun c => bsGet c (Sentence.Atom "1"))
      = [0, 1, 0, 1 / 2, 1, 0, 1 / 3] := by
  constructor
  · norm_num [findCredences, searchLoop, checkWorlds, evaluateTP, rationalCredences, productL,
      ratsBetween, allocations_of, searchDomain, dedupL, keysOf, domainF, domainFL, allVectors,
      worldOf, evalF, evalFL, History.price, History.lookup, History.withNextUpdate, bsGet,
      List.lookup, List.range_succ, List.range_zero, List.getD_cons_zero, List.getD_cons_succ,
      List.getD]
  · norm_num [rationalCredences, productL, ratsBetween, allocations_of, searchDomain, dedupL,
      keysOf, domainF, domainFL, bsGet, List.lookup, List.range_succ, List.range_zero,
      List.getD_cons_zero, List.getD_cons_succ, List.getD]

/-- The bound accumulation over one policy equals twice the sum of its
bounds. -/
theorem netBoundPolicy_eq (p : TradingPolicy)
    (hb : ∀ sf ∈ p, (boundF sf.2).isSome) :
    netBoundPolicy p = some (2 * (p.map (fun sf => (boundF sf.2).getD 0)).sum) := by
  induction p with
  | nil => simp [netBoundPolicy]
  | cons sf rest ih =>
      obtain ⟨b, hbf⟩ := Option.isSome_iff_exists.mp (hb sf (by simp))
      have hrest := ih (fun x hx => hb x (by simp [hx]))
      simp only [netBoundPolicy, hbf, hrest, Option.bind_eq_bind, Option.some_bind,
        List.map_cons, List.sum_cons, Option.getD_some, Option.pure_def, Option.some.injEq]
      ring

/-- The bound accumulation over a whole clipped row equals twice the
spec-side bound sum. -/
theorem netBoundRow_eq (row : List TradingPolicy)
    (hb : ∀ p ∈ row, ∀ sf ∈ p, (boundF sf.2).isSome) :
    netBoundRow row = some (2 * specBoundSum row) := by
  induction row with
  | nil => simp [netBoundRow, specBoundSum]
  | cons p rest ih =>
      have hp := netBoundPolicy_eq p (hb p (by simp))
      have hrest := ih (fun q hq => hb q (by simp [hq]))
      simp only [netBoundRow, hp, hrest, Option.bind_eq_bind, Option.some_bind,
        Option.some.injEq, specBoundSum, List.flatMap_cons, List.map_append,
        List.sum_append, Option.pure_def]
      ring

/-- The budget loop produces, for each budget in order, one term per entry of
the last policy, weighted by `2^(-k-1-b)` and scaled by the budget factor. -/
theorem budgetLoop_eq (k : ℕ) (pastObs : List Sentence) (lastObs : Sentence)
    (pastPolicies : List TradingPolicy) (lastPolicy : TradingPolicy)
    (creds : History) (bf : ℕ → Formula) :
    ∀ bs : List ℕ,
      (∀ b ∈ bs, computeBudgetFactor (b : ℚ) pastObs lastObs pastPolicies lastPolicy creds
        = some (bf b)) →
      budgetLoop k pastObs lastObs pastPolicies lastPolicy creds bs
        = some (bs.flatMap (fun b => lastPolicy.map (fun sf =>
            (sf.1, Formula.Product
              [Formula.Constant ((2 : ℚ) ^ (-(k : ℤ) - 1 - (b : ℤ))), bf b, sf.2])))) := by
  intro bs
  induction bs with
  | nil => intro _; simp [budgetLoop]
  | cons b rest ih =>
      intro hbf
      have hb := hbf b (by simp)
      have hrest := ih (fun x hx => hbf x (by simp [hx]))
      rw [budgetLoop, hb, hrest]
      simp

/-- Elements of a clipped row: the entry at index `i` is the empty policy when
`i < k` and the original row entry otherwise. -/
theorem clipRowFrom_getD (k : ℕ) :
    ∀ (row : List TradingPolicy) (j i : ℕ),
      (clipRowFrom k j row).getD i [] = if j + i < k then [] else row.getD i [] := by
  intro row
  induction row with
  | nil => intro j i; simp [clipRowFrom]
  | cons p rest ih =>
      intro j i
      cases i with
      | zero =>
          simp only [clipRowFrom, List.getD_cons_zero, Nat.add_zero]
      | succ m =>
          simp only [clipRowFrom, List.getD_cons_succ]
          rw [ih (j + 1) m]
          congr 1
          simp only [eq_iff_iff]
          omega

/-- C5: for every row `k` of the ensemble combinator (entries at indices `< k`
replaced by the empty policy, the rest untouched), whenever the bounds of the
clipped row's formulas and the budget factors are defined,
`net_value_bound = ⌈2 · Σ expr.bound()⌉` over the clipped row, and the terms
contributed by the row are: for each budget `b = 1 .. net_value_bound` and
each `(sentence, expr)` of the last policy, the term
`Product(Constant(2^(-k-1-b)), budget_factor_b, expr)`, followed by one tail
term `Product(Constant(2^(-k-1-net_value_bound)), expr)` per `(sentence,
expr)` of the last policy. -/
theorem claim_C5_combinator_row (k : ℕ) (row : List TradingPolicy) (obs : List Sentence)
    (creds : History) (lastPolicy : TradingPolicy) (lastObs : Sentence) (bf : ℕ → Formula)
    (hb : ∀ p ∈ clipRow k row, ∀ sf ∈ p, (boundF sf.2).isSome)
    (hlast : (clipRow k row).getLast? = some lastPolicy)
    (hobs : obs.getLast? = some lastObs)
    (hbf : ∀ b ∈ List.range' 1 (⌈2 * specBoundSum (clipRow k row)⌉.toNat),
        computeBudgetFactor (b : ℚ) obs.dropLast lastObs (clipRow k row).dropLast lastPolicy
          creds = some (bf b)) :
    (∀ i, i < k → (clipRow k row).getD i [] = [])
    ∧ (∀ i, k ≤ i → (clipRow k row).getD i [] = row.getD i [])
    ∧ netValueBound (clipRow k row) = some ⌈2 * specBoundSum (clipRow k row)⌉
    ∧ rowTerms k (clipRow k row) obs creds
      = some ((List.range' 1 (⌈2 * specBoundSum (clipRow k row)⌉.toNat)).flatMap (fun b =>
            lastPolicy.map (fun sf => (sf.1, Formula.Product
              [Formula.Constant ((2 : ℚ) ^ (-(k : ℤ) - 1 - (b : ℤ))), bf b, sf.2])))
          ++ lastPolicy.map (fun sf => (sf.1, Formula.Product
              [Formula.Constant ((2 : ℚ) ^ (-(k : ℤ) - 1 - ⌈2 * specBoundSum (clipRow k row)⌉)),
               sf.2]))) := by
  have hnet : netValueBound (clipRow k row) = some ⌈2 * specBoundSum (clipRow k row)⌉ := by
    rw [netValueBound, netBoundRow_eq _ hb]
    simp
  refine ⟨?_, ?_, hnet, ?_⟩
  · intro i hi
    rw [show clipRow k row = clipRowFrom k 0 row from rfl, clipRowFrom_getD]
    simp [hi]
  · intro i hi
    rw [show clipRow k row = clipRowFrom k 0 row from rfl, clipRowFrom_getD]
    simp [Nat.not_lt.mpr hi]
  · simp only [rowTerms, hnet, hlast, hobs]
    rw [budgetLoop_eq k obs.dropLast lastObs (clipRow k row).dropLast lastPolicy creds bf _ hbf]

/-- Witness for C5: one admitted algorithm (`k = 0`) whose single policy buys
`1/4` tokens of one atom; `net_value_bound = ⌈1/2⌉ = 1`, the budget loop runs
for `b = 1` only, and the row terms are one budget-scaled term plus one tail
term. -/
theorem claim_C5_witness :
    (∀ p ∈ clipRow 0 [wPolicy], ∀ sf ∈ p, (boundF sf.2).isSome)
    ∧ (clipRow 0 [wPolicy]).getLast? = some wPolicy
    ∧ ([wA] : List Sentence).getLast? = some wA
    ∧ (∀ b ∈ List.range' 1 (⌈2 * specBoundSum (clipRow 0 [wPolicy])⌉.toNat),
        computeBudgetFactor (b : ℚ) ([wA] : List Sentence).dropLast wA
          (clipRow 0 [wPolicy]).dropLast wPolicy ⟨[]⟩ = some ((fun _ => wBF) b))
    ∧ ((∀ i, i < 0 → (clipRow 0 [wPolicy]).getD i [] = [])
      ∧ (∀ i, 0 ≤ i → (clipRow 0 [wPolicy]).getD i [] = [wPolicy].getD i [])
      ∧ netValueBound (clipRow 0 [wPolicy]) = some ⌈2 * specBoundSum (clipRow 0 [wPolicy])⌉
      ∧ rowTerms 0 (clipRow 0 [wPolicy]) [wA] ⟨[]⟩
        = some ((List.range' 1 (⌈2 * specBoundSum (clipRow 0 [wPolicy])⌉.toNat)).flatMap (fun b =>
              wPolicy.map (fun sf => (sf.1, Formula.Product
                [Formula.Constant ((2 : ℚ) ^ (-(0 : ℤ) - 1 - (b : ℤ))), (fun _ => wBF) b, sf.2])))
            ++ wPolicy.map (fun sf => (sf.1, Formula.Product
                [Formula.Constant ((2 : ℚ) ^ (-(0 : ℤ) - 1 - ⌈2 * specBoundSum (clipRow 0 [wPolicy])⌉)),
                 sf.2])))) := by
  have hnvb : (⌈2 * specBoundSum (clipRow 0 [wPolicy])⌉.toNat) = 1 := by
    norm_num [specBoundSum, clipRow, clipRowFrom, wPolicy, wA, boundF, abs_of_nonneg]
    rw [show ⌈(1 : ℚ) / 2⌉ = 1 from by rw [Int.ceil_eq_iff] ; norm_num]
    rfl
  have hb : ∀ p ∈ clipRow 0 [wPolicy], ∀ sf ∈ p, (boundF sf.2).isSome := by
    norm_num [clipRow, clipRowFrom, wPolicy, wA, boundF]
  have hlast : (clipRow 0 [wPolicy]).getLast? = some wPolicy := rfl
  have hobs : ([wA] : List Sentence).getLast? = some wA := rfl
  have hbf : ∀ b ∈ List.range' 1 (⌈2 * specBoundSum (clipRow 0 [wPolicy])⌉.toNat),
      computeBudgetFactor (b : ℚ) ([wA] : List Sentence).dropLast wA
        (clipRow 0 [wPolicy]).dropLast wPolicy ⟨[]⟩ = some ((fun _ => wBF) b) := by
    rw [hnvb]
    intro b hbmem
    have hb1 : b = 1 := by simpa [List.range'] using hbmem
    subst hb1
    norm_num [computeBudgetFactor, bankruptCheck, bcLoop, worldsCheck, checkWorld, supportOf,
      keysOf, dedupL, worldsConsistentWith, sortAtoms, sortS, insertSorted, atomsL, atomsS,
      allVectors, mkFacts, evalS, evalAny, evalAll, worldDivisors, accValue, evaluateTP,
      List.lookup, wA, wPolicy, wBF, clipRow, clipRowFrom, List.range_succ, List.range_zero]
  exact ⟨hb, hlast, hobs, hbf,
    claim_C5_combinator_row 0 [wPolicy] [wA] ⟨[]⟩ wPolicy wA (fun _ => wBF) hb hlast hobs hbf⟩

/-- Looking a key up in a list zipped with its own image under `f` returns the
image of the key. -/
theorem lookup_zip_map {α β : Type} [BEq α] [LawfulBEq α] (f : α → β) :
    ∀ (l : List α) (x : α), x ∈ l → (l.zip (l.map f)).lookup x = some (f x) := by
  intro l
  induction l with
  | nil => intro x hx; simp at hx
  | cons a rest ih =>
      intro x hx
      simp only [List.map_cons, List.zip_cons_cons, List.lookup]
      by_cases hxa : x = a
      · subst hxa; simp
      · have hbeq : (x == a) = false := beq_false_of_ne hxa
        rw [hbeq]
        exact ih x ((List.mem_cons.mp hx).resolve_left hxa)

/-- Restricting a base-facts function to an atom list and rebuilding it with
`mkFacts` agrees with the original on that atom list. -/
theorem mkFacts_map (atoms : List String) (b : String → Bool) (x : String)
    (hx : x ∈ atoms) : mkFacts atoms (atoms.map b) x = b x := by
  rw [mkFacts, lookup_zip_map b atoms x hx]
  rfl

mutual

/-- Sentence evaluation depends only on the sentence's atoms. -/
theorem evalS_agree : ∀ (s : Sentence) (b b' : String → Bool),
    (∀ a ∈ atomsS s, b a = b' a) → evalS s b = evalS s b'
  | .Atom l, _, _, hag => hag l (by rw [show atomsS (.Atom l) = [l] from rfl]; simp)
  | .Negation s, b, b', hag => by
      have ih := evalS_agree s b b'
        (fun a ha => hag a (by rw [show atomsS (.Negation s) = atomsS s from rfl]; exact ha))
      rw [show evalS (.Negation s) b = !(evalS s b) from rfl,
        show evalS (.Negation s) b' = !(evalS s b') from rfl, ih]
  | .Disjunction ds, b, b', hag => by
      have ih := evalAny_agree ds b b'
        (fun a ha => hag a (by rw [show atomsS (.Disjunction ds) = atomsL ds from rfl]; exact ha))
      rw [show evalS (.Disjunction ds) b = evalAny ds b from rfl,
        show evalS (.Disjunction ds) b' = evalAny ds b' from rfl, ih]
  | .Conjunction cs, b, b', hag => by
      have ih := evalAll_agree cs b b'
        (fun a ha => hag a (by rw [show atomsS (.Conjunction cs) = atomsL cs from rfl]; exact ha))
      rw [show evalS (.Conjunction cs) b = evalAll cs b from rfl,
        show evalS (.Conjunction cs) b' = evalAll cs b' from rfl, ih]
  | .Implication a c, b, b', hag => by
      have iha := evalS_agree a b b' (fun x hx => hag x
        (by rw [show atomsS (.Implication a c) = atomsS a ++ atomsS c from rfl]
            exact List.mem_append_left _ hx))
      have ihc := evalS_agree c b b' (fun x hx => hag x
        (by rw [show atomsS (.Implication a c) = atomsS a ++ atomsS c from rfl]
            exact List.mem_append_right _ hx))
      rw [show evalS (.Implication a c) b = (!(evalS a b) || evalS c b) from rfl,
        show evalS (.Implication a c) b' = (!(evalS a b') || evalS c b') from rfl, iha, ihc]
  | .Iff l r, b, b', hag => by
      have ihl := evalS_agree l b b' (fun x hx => hag x
        (by rw [show atomsS (.Iff l r) = atomsS l ++ atomsS r from rfl]
            exact List.mem_append_left _ hx))
      have ihr := evalS_agree r b b' (fun x hx => hag x
        (by rw [show atomsS (.Iff l r) = atomsS l ++ atomsS r from rfl]
            exact List.mem_append_right _ hx))
      rw [show evalS (.Iff l r) b = ((evalS l b) == (evalS r b)) from rfl,
        show evalS (.Iff l r) b' = ((evalS l b') == (evalS r b')) from rfl, ihl, ihr]

/-- Disjunction-list evaluation depends only on the atoms of the list. -/
theorem evalAny_agree : ∀ (L : List Sentence) (b b' : String → Bool),
    (∀ a ∈ atomsL L, b a = b' a) → evalAny L b = evalAny L b'
  | [], _, _, _ => rfl
  | s :: rest, b, b', hag => by
      have ih1 := evalS_agree s b b' (fun a ha => hag a
        (by rw [show atomsL (s :: rest) = atomsS s ++ atomsL rest from rfl]
            exact List.mem_append_left _ ha))
      have ih2 := evalAny_agree rest b b' (fun a ha => hag a
        (by rw [show atomsL (s :: rest) = atomsS s ++ atomsL rest from rfl]
            exact List.mem_append_right _ ha))
      rw [show evalAny (s :: rest) b = (evalS s b || evalAny rest b) from rfl,
        show evalAny (s :: rest) b' = (evalS s b' || evalAny rest b') from rfl, ih1, ih2]

/-- Conjunction-list evaluation depends only on the atoms of the list. -/
theorem evalAll_agree : ∀ (L : List Sentence) (b b' : String → Bool),
    (∀ a ∈ atomsL L, b a = b' a) → evalAll L b = evalAll L b'
  | [], _, _, _ => rfl
  | s :: rest, b, b', hag => by
      have ih1 := evalS_agree s b b' (fun a ha => hag a
        (by rw [show atomsL (s :: rest) = atomsS s ++ atomsL rest from rfl]
            exact List.mem_append_left _ ha))
      have ih2 := evalAll_agree rest b b' (fun a ha => hag a
        (by rw [show atomsL (s :: rest) = atomsS s ++ atomsL rest from rfl]
            exact List.mem_append_right _ ha))
      rw [show evalAll (s :: rest) b = (evalS s b && evalAll rest b) from rfl,
        show evalAll (s :: rest) b' = (evalS s b' && evalAll rest b') from rfl, ih1, ih2]

end

/-- The atoms of a member sentence are among the atoms of the list. -/
theorem atomsS_sub_atomsL {s : Sentence} :
    ∀ {L : List Sentence}, s ∈ L → ∀ a ∈ atomsS s, a ∈ atomsL L := by
  intro L
  induction L with
  | nil => intro hs; simp at hs
  | cons t rest ih =>
      intro hs a ha
      rw [show atomsL (t :: rest) = atomsS t ++ atomsL rest from rfl]
      rcases List.mem_cons.mp hs with rfl | hmem
      · exact List.mem_append_left _ ha
      · exact List.mem_append_right _ (ih hmem a ha)

/-- Membership is preserved by sorted insertion. -/
theorem mem_insertSorted (a x : String) :
    ∀ l : List String, a ∈ insertSorted x l ↔ a = x ∨ a ∈ l := by
  intro l
  induction l with
  | nil => simp [insertSorted]
  | cons y rest ih =>
      rw [insertSorted]
      split
      · simp
      · simp only [List.mem_cons, ih]
        tauto

/-- Membership is preserved by insertion sort. -/
theorem mem_sortS (a : String) : ∀ l : List String, a ∈ sortS l ↔ a ∈ l := by
  intro l
  induction l with
  | nil => simp [sortS]
  | cons x rest ih =>
      rw [sortS, mem_insertSorted]
      simp [ih]

/-- Membership is preserved by `sortAtoms`. -/
theorem mem_sortAtoms (a : String) (l : List String) : a ∈ sortAtoms l ↔ a ∈ l := by
  rw [sortAtoms, mem_sortS, mem_dedupL]

/-- Every vector in `allVectors n` has length `n`. -/
theorem allVectors_length : ∀ (n : ℕ) (v : List Bool), v ∈ allVectors n → v.length = n := by
  intro n
  induction n with
  | zero => intro v hv; simp [allVectors] at hv; simp [hv]
  | succ m ih =>
      intro v hv
      simp only [allVectors, List.mem_flatMap, List.mem_map] at hv
      obtain ⟨b, _, bs, hbs, rfl⟩ := hv
      simp [ih bs hbs]

/-- Membership characterization for `worlds_consistent_with`: the worlds are
exactly the sentence-evaluation functions of the truth-value assignments to
the sorted atom list that make every observation true. -/
theorem mem_worldsCW_iff (observations domain : List Sentence) (w : Sentence → Bool) :
    w ∈ worldsConsistentWith observations domain ↔
      ∃ vec : List Bool,
        vec.length = (sortAtoms (atomsL domain ++ atomsL observations)).length
        ∧ (∀ s ∈ observations,
            evalS s (mkFacts (sortAtoms (atomsL domain ++ atomsL observations)) vec) = true)
        ∧ w = fun s => evalS s (mkFacts (sortAtoms (atomsL domain ++ atomsL observations)) vec) := by
  rw [worldsConsistentWith]
  constructor
  · intro hw
    rw [List.mem_filterMap] at hw
    obtain ⟨vec, hvec, hval⟩ := hw
    refine ⟨vec, allVectors_length _ vec hvec, ?_, ?_⟩
    · by_cases hall : observations.all
          (fun s => evalS s (mkFacts (sortAtoms (atomsL domain ++ atomsL observations)) vec))
      · intro s hs
        exact List.all_eq_true.mp hall s hs
      · rw [if_neg hall] at hval
        exact absurd hval (by simp)
    · by_cases hall : observations.all
          (fun s => evalS s (mkFacts (sortAtoms (atomsL domain ++ atomsL observations)) vec))
      · rw [if_pos hall] at hval
        exact (Option.some.inj hval).symm
      · rw [if_neg hall] at hval
        exact absurd hval (by simp)
  · rintro ⟨vec, hlen, htrue, rfl⟩
    rw [List.mem_filterMap]
    refine ⟨vec, ?_, ?_⟩
    · rw [← hlen]; exact allVectors_complete vec
    · rw [if_pos (List.all_eq_true.mpr htrue)]

/-- The value of a trading policy depends on the world only at the policy's
keys. -/
theorem evaluateTP_world_congr (h : History) (w w' : Sentence → Bool) :
    ∀ tp : TradingPolicy, (∀ sf ∈ tp, w sf.1 = w' sf.1) →
      evaluateTP tp h w = evaluateTP tp h w' := by
  intro tp
  induction tp with
  | nil => intro _; rfl
  | cons sf rest ih =>
      intro hag
      obtain ⟨s, f⟩ := sf
      have hs : w s = w' s := hag (s, f) (by simp)
      have hrest := ih (fun x hx => hag x (by simp [hx]))
      rw [show evaluateTP ((s, f) :: rest) h w
          = (do
              let q ← evalF f h
              let p ← h.price s
              let acc ← evaluateTP rest h w
              pure (q * ((if w s then 1 else 0) - p) + acc)) from rfl,
        show evaluateTP ((s, f) :: rest) h w'
          = (do
              let q ← evalF f h
              let p ← h.price s
              let acc ← evaluateTP rest h w'
              pure (q * ((if w' s then 1 else 0) - p) + acc)) from rfl,
        hs, hrest]

/-- The accumulated value over a trading history depends on the world only at
the keys of its policies. -/
theorem accValue_congr (creds : History) (w w' : Sentence → Bool) :
    ∀ hist : List TradingPolicy, (∀ p ∈ hist, ∀ sf ∈ p, w sf.1 = w' sf.1) →
      accValue hist creds w = accValue hist creds w' := by
  intro hist
  induction hist with
  | nil => intro _; rfl
  | cons p rest ih =>
      intro hag
      have hp := evaluateTP_world_congr creds w w' p (hag p (by simp))
      have hrest := ih (fun q hq => hag q (by simp [hq]))
      rw [accValue, accValue, hp, hrest]

/-- Extraction for `checkWorld`: if the prefix check walked a nonempty history
without declaring bankruptcy, the total accumulated value is defined and the
final partial sum stayed at or above `-B + 1e-7`. -/
theorem checkWorld_false (B : ℚ) (creds : History) (w : Sentence → Bool) :
    ∀ (hist : List TradingPolicy) (acc : ℚ), hist ≠ [] →
      checkWorld B creds w acc hist = some false →
      ∃ t, accValue hist creds w = some t ∧ -B + 1 / 10000000 ≤ acc + t := by
  intro hist
  induction hist with
  | nil => intro acc hne _; exact absurd rfl hne
  | cons p rest ih =>
      intro acc _ hck
      rw [checkWorld] at hck
      rcases he : evaluateTP p creds w with _ | v
      · rw [he] at hck; exact absurd hck (by simp)
      · rw [he] at hck
        change (if acc + v < -B + 1 / 10000000 then some true
          else checkWorld B creds w (acc + v) rest) = some false at hck
        by_cases hlt : acc + v < -B + 1 / 10000000
        · rw [if_pos hlt] at hck; exact absurd hck (by simp)
        · rw [if_neg hlt] at hck
          rcases List.eq_nil_or_concat rest with rfl | ⟨_, _, hconcat⟩
          · refine ⟨v + 0, ?_, ?_⟩
            · rw [accValue, he]; rfl
            · rw [add_zero]; exact le_of_not_lt hlt
          · have hne : rest ≠ [] := by rw [hconcat]; simp
            obtain ⟨t, hacc, hge⟩ := ih (acc + v) hne hck
            refine ⟨v + t, ?_, ?_⟩
            · rw [accValue, he, hacc]; rfl
            · have : acc + (v + t) = acc + v + t := by ring
              rw [this]; exact hge

/-- Extraction for `worldsCheck`: passing means `checkWorld` passed on every
world in the list. -/
theorem worldsCheck_false (B : ℚ) (creds : History) (hist : List TradingPolicy) :
    ∀ ws : List (Sentence → Bool), worldsCheck B creds hist ws = some false →
      ∀ w ∈ ws, checkWorld B creds w 0 hist = some false := by
  intro ws
  induction ws with
  | nil => intro _ w hw; simp at hw
  | cons w0 rest ih =>
      intro hwc w hw
      rw [worldsCheck] at hwc
      rcases hck : checkWorld B creds w0 0 hist with _ | b
      · rw [hck] at hwc; exact absurd hwc (by simp)
      · rw [hck] at hwc
        cases b
        · rcases List.mem_cons.mp hw with rfl | hmem
          · exact hck
          · exact ih hwc w hmem
        · exact absurd hwc (by simp)

/-- Extraction for `bcLoop`: passing means `worldsCheck` passed at every
prefix index. -/
theorem bcLoop_false (B : ℚ) (obs : List Sentence) (hist : List TradingPolicy)
    (creds : History) (supp : List Sentence) :
    ∀ is : List ℕ, bcLoop B obs hist creds supp is = some false →
      ∀ i ∈ is, worldsCheck B creds (hist.take (i + 1))
        (worldsConsistentWith (obs.take (i + 1)) supp) = some false := by
  intro is
  induction is with
  | nil => intro _ i hi; simp at hi
  | cons i0 rest ih =>
      intro hbc i hi
      rw [bcLoop] at hbc
      rcases hwc : worldsCheck B creds (hist.take (i0 + 1))
          (worldsConsistentWith (obs.take (i0 + 1)) supp) with _ | b
      · rw [hwc] at hbc; exact absurd hbc (by simp)
      · rw [hwc] at hbc
        cases b
        · rcases List.mem_cons.mp hi with rfl | hmem
          · exact hwc
          · exact ih hbc i hmem
        · exact absurd hbc (by simp)

/-- When the accumulated value is defined and the remaining budget exceeds
`1e-8` in every world of the list, `worldDivisors` succeeds. -/
theorem worldDivisors_some (B : ℚ) (hist : List TradingPolicy) (nextTP : TradingPolicy)
    (creds : History) (n : ℕ) :
    ∀ ws : List (Sentence → Bool),
      (∀ w ∈ ws, ∃ t, accValue hist creds w = some t ∧ 1 / 100000000 < B + t) →
      ∃ ds, worldDivisors B hist nextTP creds n ws = some ds := by
  intro ws
  induction ws with
  | nil => intro _; exact ⟨[], rfl⟩
  | cons w rest ih =>
      intro hws
      obtain ⟨t, hacc, hgt⟩ := hws w (by simp)
      obtain ⟨ds, hds⟩ := ih (fun w' hw' => hws w' (by simp [hw']))
      refine ⟨Formula.Product [Formula.Constant (1 / (B + t)),
          Formula.Product [Formula.Constant (-1), Formula.Sum (nextTP.map (fun sf =>
            Formula.Product [sf.2,
              Formula.Sum [Formula.Constant (if w sf.1 then 1 else 0),
                Formula.Product [Formula.Constant (-1), Formula.Price sf.1 (n + 1)]]]))]]
          :: ds, ?_⟩
      rw [worldDivisors, hacc]
      change (if B + t > 1 / 100000000 then
          match worldDivisors B hist nextTP creds n rest with
          | none => none
          | some rest' =>
              some (Formula.Product [Formula.Constant (1 / (B + t)),
                Formula.Product [Formula.Constant (-1), Formula.Sum (nextTP.map (fun sf =>
                  Formula.Product [sf.2,
                    Formula.Sum [Formula.Constant (if w sf.1 then 1 else 0),
                      Formula.Product [Formula.Constant (-1), Formula.Price sf.1 (n + 1)]]]))]]
                :: rest')
        else none) = some (Formula.Product [Formula.Constant (1 / (B + t)),
          Formula.Product [Formula.Constant (-1), Formula.Sum (nextTP.map (fun sf =>
            Formula.Product [sf.2,
              Formula.Sum [Formula.Constant (if w sf.1 then 1 else 0),
                Formula.Product [Formula.Constant (-1), Formula.Price sf.1 (n + 1)]]]))]]
          :: ds)
      rw [if_pos hgt, hds]


/-- C6 (amended): in `compute_budget_factor` with budget `B > 1e-8`, whenever
the step-1 prefix check completes without returning `Constant(0)`, then for
every world enumerated in step 2 (consistent with all past observations plus
the next observation, over the extended support) the remaining budget
`B + accumulated past value` is strictly positive — indeed above the `1e-8`
slack — so the internal assertion `remaining_budget > 1e-8` never fails and
the budget factor is constructed without error. -/
theorem claim_C6_remaining_budget (B : ℚ) (obs : List Sentence) (nextObs : Sentence)
    (hist : List TradingPolicy) (nextTP : TradingPolicy) (creds : History)
    (hB : 1 / 100000000 < B)
    (hlen : hist.length = obs.length)
    (hpre : bankruptCheck B obs hist creds = some false) :
    (∀ w ∈ worldsConsistentWith (obs ++ [nextObs]) (dedupL (supportOf hist ++ keysOf nextTP)),
        ∃ t, accValue hist creds w = some t ∧ 0 < B + t ∧ 1 / 100000000 < B + t)
    ∧ ∃ f, computeBudgetFactor B obs nextObs hist nextTP creds = some f := by
  have key : ∀ w ∈ worldsConsistentWith (obs ++ [nextObs])
      (dedupL (supportOf hist ++ keysOf nextTP)),
      ∃ t, accValue hist creds w = some t ∧ 1 / 100000000 < B + t := by
    intro w hw
    rcases Nat.eq_zero_or_pos obs.length with hn | hn
    · have hhist0 : hist = [] := List.length_eq_zero.mp (by rw [hlen, hn])
      subst hhist0
      exact ⟨0, rfl, by linarith⟩
    · obtain ⟨vec, hvlen, htrue, hwdef⟩ := (mem_worldsCW_iff _ _ w).mp hw
      set atoms2 := sortAtoms (atomsL (dedupL (supportOf hist ++ keysOf nextTP))
        ++ atomsL (obs ++ [nextObs])) with hatoms2
      set b := mkFacts atoms2 vec with hbdef
      set atoms1 := sortAtoms (atomsL (supportOf hist) ++ atomsL obs) with hatoms1
      set b1 := mkFacts atoms1 (atoms1.map b) with hb1def
      have hb1 : ∀ x ∈ atoms1, b1 x = b x := fun x hx => mkFacts_map atoms1 b x hx
      have hsub_supp : ∀ s ∈ supportOf hist, ∀ a ∈ atomsS s, a ∈ atoms1 := by
        intro s hs a ha
        rw [hatoms1, mem_sortAtoms]
        exact List.mem_append_left _ (atomsS_sub_atomsL hs a ha)
      have hsub_obs : ∀ s ∈ obs, ∀ a ∈ atomsS s, a ∈ atoms1 := by
        intro s hs a ha
        rw [hatoms1, mem_sortAtoms]
        exact List.mem_append_right _ (atomsS_sub_atomsL hs a ha)
      have hw1mem : (fun s => evalS s b1) ∈ worldsConsistentWith obs (supportOf hist) := by
        apply (mem_worldsCW_iff obs (supportOf hist) _).mpr
        refine ⟨atoms1.map b, by simp, ?_, rfl⟩
        intro s hs
        have hagree : evalS s b1 = evalS s b :=
          evalS_agree s b1 b (fun a ha => hb1 a (hsub_obs s hs a ha))
        rw [hagree]
        exact htrue s (List.mem_append_left _ hs)
      have hn1 : obs.length - 1 ∈ List.range obs.length := by
        rw [List.mem_range]; omega
      have hwc := bcLoop_false B obs hist creds (supportOf hist) _ hpre (obs.length - 1) hn1
      rw [show obs.length - 1 + 1 = obs.length from by omega, List.take_length,
        show hist.take obs.length = hist from by rw [← hlen]; exact List.take_length hist] at hwc
      have hcw := worldsCheck_false B creds hist _ hwc _ hw1mem
      have hist_ne : hist ≠ [] := by
        intro he
        rw [he] at hlen
        simp at hlen
        omega
      obtain ⟨t, hacc1, hge⟩ := checkWorld_false B creds (fun s => evalS s b1) hist 0 hist_ne hcw
      have hagree_keys : ∀ p ∈ hist, ∀ sf ∈ p, w sf.1 = (fun s => evalS s b1) sf.1 := by
        intro p hp sf hsf
        have hkey : sf.1 ∈ supportOf hist := by
          rw [supportOf, mem_dedupL]
          rw [List.mem_flatMap]
          exact ⟨p, hp, List.mem_map_of_mem Prod.fst hsf⟩
        have hagree : evalS sf.1 b1 = evalS sf.1 b :=
          evalS_agree sf.1 b1 b (fun a ha => hb1 a (hsub_supp sf.1 hkey a ha))
        rw [hwdef]
        exact hagree.symm
      have hacc_eq : accValue hist creds w = accValue hist creds (fun s => evalS s b1) :=
        accValue_congr creds w _ hist hagree_keys
      refine ⟨t, by rw [hacc_eq]; exact hacc1, ?_⟩
      rw [zero_add] at hge
      have : (1 : ℚ) / 100000000 < 1 / 10000000 := by norm_num
      linarith
  constructor
  · intro w hw
    obtain ⟨t, h1, h2⟩ := key w hw
    refine ⟨t, h1, ?_, h2⟩
    have : (0 : ℚ) < 1 / 100000000 := by norm_num
    linarith
  · obtain ⟨ds, hds⟩ := worldDivisors_some B hist nextTP creds obs.length _ key
    refine ⟨Formula.SafeReciprocal (Formula.Max ds), ?_⟩
    rw [computeBudgetFactor, if_pos (by linarith : B > 0), hpre, hds]

/-- C6 (counterexample): with budget `B = 1e-9 > 0`, empty histories (so the
step-1 prefix check trivially completes without returning `Constant(0)`), and
a satisfiable next observation, the remaining budget in the single consistent
world is `B = 1e-9 ≤ 1e-8`, so the internal assertion
`remaining_budget > 1e-8` fails and `compute_budget_factor` raises — the
claim's "the assertion never fails" is false for budgets in `(0, 1e-8]`. -/
theorem claim_C6_counterexample :
    ((1 : ℚ) / 1000000000 > 0)
    ∧ bankruptCheck ((1 : ℚ) / 1000000000) [] [] ⟨[]⟩ = some false
    ∧ computeBudgetFactor ((1 : ℚ) / 1000000000) [] (Sentence.Atom "a") [] [] ⟨[]⟩ = none := by
  refine ⟨by norm_num, rfl, ?_⟩
  norm_num [computeBudgetFactor, bankruptCheck, bcLoop, worldsCheck, supportOf, keysOf, dedupL,
    worldsConsistentWith, sortAtoms, sortS, insertSorted, atomsL, atomsS, allVectors, mkFacts,
    evalS, worldDivisors, accValue, List.lookup]

/-- Witness for C6 (amended) on a one-update history with budget 1. -/
theorem claim_C6_witness :
    ((1 : ℚ) / 100000000 < 1)
    ∧ ([[(Sentence.Atom "a", Formula.Constant 1)]] : List TradingPolicy).length
      = ([Sentence.Atom "a"] : List Sentence).length
    ∧ bankruptCheck 1 [Sentence.Atom "a"] [[(Sentence.Atom "a", Formula.Constant 1)]]
        ⟨[[(Sentence.Atom "a", 1 / 2)]]⟩ = some false
    ∧ ((∀ w ∈ worldsConsistentWith ([Sentence.Atom "a"] ++ [Sentence.Atom "b"])
          (dedupL (supportOf [[(Sentence.Atom "a", Formula.Constant 1)]]
            ++ keysOf [(Sentence.Atom "b", Formula.Constant 3)])),
          ∃ t, accValue [[(Sentence.Atom "a", Formula.Constant 1)]]
              ⟨[[(Sentence.Atom "a", 1 / 2)]]⟩ w = some t
            ∧ 0 < 1 + t ∧ (1 : ℚ) / 100000000 < 1 + t)
      ∧ ∃ f, computeBudgetFactor 1 [Sentence.Atom "a"] (Sentence.Atom "b")
          [[(Sentence.Atom "a", Formula.Constant 1)]] [(Sentence.Atom "b", Formula.Constant 3)]
          ⟨[[(Sentence.Atom "a", 1 / 2)]]⟩ = some f) := by
  have hpre : bankruptCheck 1 [Sentence.Atom "a"] [[(Sentence.Atom "a", Formula.Constant 1)]]
      ⟨[[(Sentence.Atom "a", 1 / 2)]]⟩ = some false := by
    norm_num [bankruptCheck, bcLoop, worldsCheck, checkWorld, supportOf, keysOf, dedupL,
      worldsConsistentWith, sortAtoms, sortS, insertSorted, atomsL, atomsS, allVectors, mkFacts,
      evalS, evaluateTP, evalF, History.price, bsGet, List.lookup, List.range_succ,
      List.range_zero]
  exact ⟨by norm_num, rfl, hpre,
    claim_C6_remaining_budget 1 [Sentence.Atom "a"] (Sentence.Atom "b")
      [[(Sentence.Atom "a", Formula.Constant 1)]] [(Sentence.Atom "b", Formula.Constant 3)]
      ⟨[[(Sentence.Atom "a", 1 / 2)]]⟩ (by norm_num) rfl hpre⟩
